import Mathlib

/-!
Verification of the NFD Content Store (`src/daemon/table/cs.hpp`).

The repository ships only the header `cs.hpp`: it declares the class `Cs`
(table of entries sorted by full Name, three cleanup queues in the order
unsolicited / stale / fresh, eviction that exhausts queues in that order),
gives the bodies of `erase` (a failing assertion), `getLimit`, `size` and
the enumeration, and documents the remaining members.  The member bodies
that live in `cs.cpp` are not part of the source tree, so those operations
are modelled from the specification's description of them; every such
definition carries a doc comment starting with `Modelled from the spec:`.
The shapes fixed by the header (the `const` qualifier on `find`, the
queue order, the assertion in `erase`, `size`/`getLimit`) are taken from
the header itself.
-/

namespace NfdCs

/-- A name component: an opaque sequence of bytes (hpp line 33: Names of
Data packets; spec sect 3: ordered sequence of opaque binary components). -/
abbrev Component := List Nat

/-- A hierarchical Name: an ordered sequence of components. -/
abbrev Name := List Component

/-- Byte-lexicographic comparison of two components (spec sect 4.1:
unsigned byte-lexicographic order per component). -/
def cmpBytes : List Nat → List Nat → Ordering
  | [], [] => .eq
  | [], _ :: _ => .lt
  | _ :: _, [] => .gt
  | a :: as, b :: bs =>
    if a < b then .lt else if b < a then .gt else cmpBytes as bs

/-- Canonical Name ordering (spec sect 4.1): component-by-component,
and when all compared components are equal the shorter Name sorts first. -/
def cmpName : Name → Name → Ordering
  | [], [] => .eq
  | [], _ :: _ => .lt
  | _ :: _, [] => .gt
  | a :: as, b :: bs =>
    match cmpBytes a b with
    | .eq => cmpName as bs
    | o => o

/-- Strict order on Names induced by `cmpName`. -/
def nameLt (a b : Name) : Prop := cmpName a b = .lt

instance (a b : Name) : Decidable (nameLt a b) := by
  unfold nameLt; infer_instance

theorem cmpBytes_eq_iff : ∀ a b : List Nat, cmpBytes a b = .eq ↔ a = b := by
  intro a
  induction a with
  | nil => intro b; cases b <;> simp [cmpBytes]
  | cons x as ih =>
    intro b
    cases b with
    | nil => simp [cmpBytes]
    | cons y bs =>
      by_cases hxy : x < y
      · simp [cmpBytes, hxy]
        intro h; omega
      · by_cases hyx : y < x
        · simp [cmpBytes, hxy, hyx]
          intro h; omega
        · have hxyeq : x = y := by omega
          simp [cmpBytes, hxy, hyx, hxyeq, ih]

theorem cmpName_eq_iff : ∀ a b : Name, cmpName a b = .eq ↔ a = b := by
  intro a
  induction a with
  | nil => intro b; cases b <;> simp [cmpName]
  | cons x as ih =>
    intro b
    cases b with
    | nil => simp [cmpName]
    | cons y bs =>
      cases h : cmpBytes x y with
      | lt =>
        simp only [cmpName, h]
        constructor
        · intro hcontr; cases hcontr
        · rintro ⟨rfl, rfl⟩
          rw [(cmpBytes_eq_iff x x).2 rfl] at h; cases h
      | eq =>
        have hxy : x = y := (cmpBytes_eq_iff x y).1 h
        subst hxy
        simp [cmpName, (cmpBytes_eq_iff x x).2 rfl, ih]
      | gt =>
        simp only [cmpName, h]
        constructor
        · intro hcontr; cases hcontr
        · rintro ⟨rfl, rfl⟩
          rw [(cmpBytes_eq_iff x x).2 rfl] at h; cases h

theorem cmpName_refl (a : Name) : cmpName a a = .eq :=
  (cmpName_eq_iff a a).2 rfl

theorem cmpBytes_swap : ∀ a b : List Nat, cmpBytes b a = (cmpBytes a b).swap := by
  intro a
  induction a with
  | nil => intro b; cases b <;> simp [cmpBytes, Ordering.swap]
  | cons x as ih =>
    intro b
    cases b with
    | nil => simp [cmpBytes, Ordering.swap]
    | cons y bs =>
      by_cases hxy : x < y
      · have hyx : ¬ y < x := by omega
        simp [cmpBytes, hxy, hyx, Ordering.swap]
      · by_cases hyx : y < x
        · simp [cmpBytes, hxy, hyx, Ordering.swap]
        · simp [cmpBytes, hxy, hyx, ih]

theorem cmpName_swap : ∀ a b : Name, cmpName b a = (cmpName a b).swap := by
  intro a
  induction a with
  | nil => intro b; cases b <;> simp [cmpName, Ordering.swap]
  | cons x as ih =>
    intro b
    cases b with
    | nil => simp [cmpName, Ordering.swap]
    | cons y bs =>
      simp only [cmpName, cmpBytes_swap x y]
      cases hxy : cmpBytes x y with
      | lt => simp [Ordering.swap]
      | eq => simp [Ordering.swap, ih]
      | gt => simp [Ordering.swap]

theorem cmpBytes_lt_trans :
    ∀ {a b c : List Nat}, cmpBytes a b = .lt → cmpBytes b c = .lt → cmpBytes a c = .lt := by
  intro a
  induction a with
  | nil =>
    intro b c hab hbc
    cases b with
    | nil => cases hab
    | cons y bs =>
      cases c with
      | nil => cases hbc
      | cons z cs => simp [cmpBytes]
  | cons x as ih =>
    intro b c hab hbc
    cases b with
    | nil => cases hab
    | cons y bs =>
      cases c with
      | nil => cases hbc
      | cons z cs =>
        simp only [cmpBytes] at hab hbc ⊢
        rcases lt_trichotomy x y with h1 | h1 | h1
        · rcases lt_trichotomy y z with h2 | h2 | h2
          · have hxz : x < z := lt_trans h1 h2
            simp [hxz]
          · subst h2; simp [h1]
          · rw [if_neg (by omega), if_pos h2] at hbc; cases hbc
        · subst h1
          have hxx : ¬ x < x := lt_irrefl x
          rw [if_neg hxx, if_neg hxx] at hab
          rcases lt_trichotomy x z with h2 | h2 | h2
          · simp [h2]
          · subst h2
            rw [if_neg hxx, if_neg hxx] at hbc ⊢
            exact ih hab hbc
          · rw [if_neg (by omega), if_pos h2] at hbc; cases hbc
        · rw [if_neg (by omega), if_pos h1] at hab; cases hab

theorem cmpName_lt_trans :
    ∀ {a b c : Name}, cmpName a b = .lt → cmpName b c = .lt → cmpName a c = .lt := by
  intro a
  induction a with
  | nil =>
    intro b c hab hbc
    cases b with
    | nil => cases hab
    | cons y bs =>
      cases c with
      | nil => cases hbc
      | cons z cs => simp [cmpName]
  | cons x as ih =>
    intro b c hab hbc
    cases b with
    | nil => cases hab
    | cons y bs =>
      cases c with
      | nil => cases hbc
      | cons z cs =>
        simp only [cmpName] at hab hbc ⊢
        cases hxy : cmpBytes x y with
        | lt =>
          cases hyz : cmpBytes y z with
          | lt => simp [cmpBytes_lt_trans hxy hyz]
          | eq =>
            have hy : y = z := (cmpBytes_eq_iff y z).1 hyz
            subst hy
            simp [hxy]
          | gt => simp [hyz] at hbc
        | eq =>
          have hx : x = y := (cmpBytes_eq_iff x y).1 hxy
          subst hx
          simp only [hxy] at hab
          cases hyz : cmpBytes x z with
          | lt => simp [hyz]
          | eq =>
            have hz : x = z := (cmpBytes_eq_iff x z).1 hyz
            subst hz
            simp only [hyz] at hbc ⊢
            exact ih hab hbc
          | gt => simp [hyz] at hbc
        | gt => simp [hxy] at hab

theorem nameLt_trans {a b c : Name} (h1 : nameLt a b) (h2 : nameLt b c) : nameLt a c :=
  cmpName_lt_trans h1 h2

theorem nameLt_irrefl (a : Name) : ¬ nameLt a a := by
  unfold nameLt
  rw [cmpName_refl]
  simp

theorem nameLt_ne {a b : Name} (h : nameLt a b) : a ≠ b := by
  rintro rfl
  exact nameLt_irrefl a h

/-- Tests whether `p` is a componentwise prefix of `nm` (spec sect 3:
is-prefix-of test used for range bounding). -/
def nameHasPrefix : Name → Name → Bool
  | _, [] => true
  | [], _ :: _ => false
  | a :: nm, b :: p => decide (a = b) && nameHasPrefix nm p

theorem nameHasPrefix_refl : ∀ nm : Name, nameHasPrefix nm nm = true := by
  intro nm
  induction nm with
  | nil => rfl
  | cons a nm ih => simp [nameHasPrefix, ih]

theorem nameHasPrefix_length_le :
    ∀ {nm p : Name}, nameHasPrefix nm p = true → p.length ≤ nm.length := by
  intro nm
  induction nm with
  | nil => intro p h; cases p with
    | nil => simp
    | cons b q => simp [nameHasPrefix] at h
  | cons a nm ih =>
    intro p h
    cases p with
    | nil => simp
    | cons b q =>
      simp only [nameHasPrefix, Bool.and_eq_true, decide_eq_true_eq] at h
      simpa using ih h.2

theorem nameHasPrefix_eq_of_length_le :
    ∀ {nm p : Name}, nameHasPrefix nm p = true → nm.length ≤ p.length → nm = p := by
  intro nm
  induction nm with
  | nil => intro p h _; cases p with
    | nil => rfl
    | cons b q => simp [nameHasPrefix] at h
  | cons a nm ih =>
    intro p h hlen
    cases p with
    | nil => simp at hlen
    | cons b q =>
      simp only [nameHasPrefix, Bool.and_eq_true, decide_eq_true_eq] at h
      simp only [List.length_cons, Nat.succ_le_succ_iff] at hlen
      rw [h.1, ih h.2 hlen]

/-- A Data packet, as consumed by the Content Store: a full Name, a
freshness period (spec sect 3: possibly zero, meaning immediately stale)
and an opaque payload. -/
structure Data where
  name : Name
  freshnessPeriod : Nat
  payload : Nat
deriving DecidableEq, Repr

/-- An Entry of the Table (hpp lines 33-36: each Entry contains the Data
packet plus attributes such as staleness).  `staleAt` is the absolute
deadline: insertion time plus freshness period (spec sect 3). -/
structure Entry where
  data : Data
  isUnsolicited : Bool
  staleAt : Nat
deriving DecidableEq, Repr

/-- The Name that keys an Entry in the Table. -/
def Entry.name (e : Entry) : Name := e.data.name

/-- Derived staleness bit (spec sect 3: true once current time is at or
past `staleAt`). -/
def Entry.isStale (e : Entry) (now : Nat) : Bool := decide (e.staleAt ≤ now)

/-- The three cleanup queues, in the priority order the header fixes
(hpp lines 38-45: unsolicited, stale, and fresh). -/
inductive Tier where
  | unsolicited
  | stale
  | fresh
deriving DecidableEq, Repr

/-- Child selector of a request (spec sect 4.4: Leftmost or Rightmost). -/
inductive ChildSel where
  | leftmost
  | rightmost
deriving DecidableEq, Repr

/-- An Interest-equivalent request (spec sect 4.4): name prefix,
suffix-component bounds, freshness requirement, child selector, and an
exclusion filter over the component position right after the prefix. -/
structure Interest where
  name : Name
  minSuffixComponents : Nat
  maxSuffixComponents : Option Nat
  mustBeFresh : Bool
  childSelector : ChildSel
  exclude : List Component
deriving DecidableEq, Repr

/-- The state of the ContentStore (hpp lines 186-189: a capacity
`m_limit`, the Table sorted by full Names, and one cleanup queue per
tier).  Queues hold references to Table entries; entries are keyed by
their unique full Name, so the references are modelled as Names. -/
structure CsState where
  limit : Nat
  table : List Entry
  qUnsolicited : List Name
  qStale : List Name
  qFresh : List Name
deriving DecidableEq, Repr

/-- Initial store (hpp lines 62-63: `Cs(size_t nMaxPackets = 10)`). -/
def Cs.init (nMaxPackets : Nat) : CsState :=
  { limit := nMaxPackets, table := [], qUnsolicited := [], qStale := [], qFresh := [] }

/-- Number of stored packets (hpp lines 100-104: `size()` returns
`m_table.size()`). -/
def CsState.size (s : CsState) : Nat := s.table.length

/-- Capacity in packets (hpp lines 92-96: `getLimit()` returns `m_limit`). -/
def CsState.getLimit (s : CsState) : Nat := s.limit

/-- All queue contents in priority order; used to state the queue
invariant of hpp line 42 (each Table iterator in exactly one queue). -/
def CsState.qAll (s : CsState) : List Name :=
  s.qUnsolicited ++ (s.qStale ++ s.qFresh)

/-- The Names of the Table's entries, in Table order. -/
def CsState.names (s : CsState) : List Name :=
  s.table.map Entry.name

/-- The queue an entry currently occupies, if any, checked in the fixed
tier order. -/
def CsState.tierOf (s : CsState) (n : Name) : Option Tier :=
  if n ∈ s.qUnsolicited then some .unsolicited
  else if n ∈ s.qStale then some .stale
  else if n ∈ s.qFresh then some .fresh
  else none

/-- Whether the entry named `n` is attached to some cleanup queue. -/
def CsState.isAttached (s : CsState) (n : Name) : Bool :=
  decide (n ∈ s.qUnsolicited) || decide (n ∈ s.qStale) || decide (n ∈ s.qFresh)

/-- Exact lookup in the Table (spec sect 4.2: `find(name)` is an exact
lookup returning the entry handle, if present). -/
def tableFind (t : List Entry) (n : Name) : Option Entry :=
  t.find? (fun e => decide (e.data.name = n))

/-- Removes the entry with Name `n` from the Table, if present (spec
sect 4.2: `erase(handle)` removes the entry the handle designates). -/
def tableErase : List Entry → Name → List Entry
  | [], _ => []
  | e :: t, n => if e.data.name = n then t else e :: tableErase t n

/-- Places an Entry at its sorted position in the Table, replacing any
entry with the same full Name (spec sect 3: the Table is ordered by
`data.Name` and unique by full Name). -/
def tableInsert : List Entry → Entry → List Entry
  | [], e => [e]
  | x :: t, e =>
    match cmpName e.data.name x.data.name with
    | .lt => e :: x :: t
    | .eq => e :: t
    | .gt => x :: tableInsert t e

/-- Removes the first occurrence of a queue reference from a queue. -/
def queueErase : List Name → Name → List Name
  | [], _ => []
  | m :: q, n => if m = n then q else m :: queueErase q n

/-- Occurrence count of a queue reference. -/
def countQ (l : List Name) (n : Name) : Nat :=
  (l.filter fun m => decide (m = n)).length

/-- Modelled from the spec: the body of `Cs::detachQueue` (declared at
hpp lines 164-168, defined in the missing `cs.cpp`).  Spec sect 4.3:
removes the entry from its current queue, in place, using its stored
queue position — exactly one slot of one queue disappears. -/
def detachQueue (s : CsState) (n : Name) : CsState :=
  if n ∈ s.qUnsolicited then { s with qUnsolicited := queueErase s.qUnsolicited n }
  else if n ∈ s.qStale then { s with qStale := queueErase s.qStale n }
  else { s with qFresh := queueErase s.qFresh n }

/-- Appends a queue reference at the tail of the given tier's queue
(spec sect 3: FIFO, push at tail). -/
def appendQueue (s : CsState) (tier : Tier) (n : Name) : CsState :=
  match tier with
  | .unsolicited => { s with qUnsolicited := s.qUnsolicited ++ [n] }
  | .stale => { s with qStale := s.qStale ++ [n] }
  | .fresh => { s with qFresh := s.qFresh ++ [n] }

/-- Modelled from the spec: the tier-assignment rule applied by
`Cs::attachQueue` (spec sect 4.3): `isUnsolicited` gives the Unsolicited
tier; else a zero or already-expired freshness period gives the Stale
tier; else the Fresh tier. -/
def tierFor (e : Entry) (now : Nat) : Tier :=
  if e.isUnsolicited then .unsolicited
  else if e.data.freshnessPeriod = 0 ∨ e.staleAt ≤ now then .stale
  else .fresh

/-- Modelled from the spec: the body of `Cs::attachQueue` (declared at
hpp lines 157-162, defined in the missing `cs.cpp`).  Per the header's
note (hpp line 159) an already-attached entry is automatically detached
first; the entry is then appended at the tail of the suitable queue. -/
def attachQueue (s : CsState) (e : Entry) (now : Nat) : CsState :=
  appendQueue (if s.isAttached e.data.name then detachQueue s e.data.name else s)
    (tierFor e now) e.data.name

/-- Modelled from the spec: the body of `Cs::moveToStaleQueue` (declared
at hpp lines 170-173, defined in the missing `cs.cpp`).  Spec sect 4.3:
the entry is detached from its queue and appended at the Stale queue's
tail. -/
def moveToStaleQueue (s : CsState) (n : Name) : CsState :=
  appendQueue (detachQueue s n) Tier.stale n

/-- Modelled from the spec: the body of `Cs::evictPick` (declared at hpp
lines 175-178, defined in the missing `cs.cpp`).  Per hpp lines 44-45 and
spec sect 4.5: inspect the queues in the fixed order unsolicited, stale,
fresh, and return the head of the first non-empty queue together with the
diagnostic reason string. -/
def evictPick (s : CsState) : Option (Name × String) :=
  match s.qUnsolicited with
  | n :: _ => some (n, "unsolicited")
  | [] =>
    match s.qStale with
    | n :: _ => some (n, "stale")
    | [] =>
      match s.qFresh with
      | n :: _ => some (n, "fresh")
      | [] => none

/-- Removes the entry named `n` from the Table part of the state. -/
def eraseEntry (s : CsState) (n : Name) : CsState :=
  { s with table := tableErase s.table n }

/-- One eviction step: detach the picked entry from its queue and erase
it from the Table (spec sect 4.5). -/
def evictOnce (s : CsState) : CsState :=
  match evictPick s with
  | some (n, _) => eraseEntry (detachQueue s n) n
  | none => s

/-- Modelled from the spec: the loop of `Cs::evict` (declared at hpp
lines 180-184, defined in the missing `cs.cpp`).  Spec sect 4.5: while
`size() > limit`, pick, detach and erase; the loop terminates because
each iteration strictly decreases the size, which the fuel argument
makes explicit. -/
def evictLoop : CsState → Nat → CsState
  | s, 0 => s
  | s, fuel + 1 =>
    if s.size ≤ s.limit then s
    else
      match evictPick s with
      | some (n, _) => evictLoop (eraseEntry (detachQueue s n) n) fuel
      | none => s

/-- Modelled from the spec: the body of `Cs::evict` — evicts zero or
more entries so that the number of stored entries is not greater than
the capacity (hpp lines 180-184). -/
def Cs.evict (s : CsState) : CsState :=
  evictLoop s s.size

/-- Modelled from the spec: the body of `Cs::insert` (declared at hpp
lines 65-69, defined in the missing `cs.cpp`; the header documents the
return value as `true`).  Spec sect 4.2/4.5: a same-Name entry is first
fully detached and destroyed, the new Entry is placed at its sorted
position with `staleAt` = insertion time + freshness period, attached to
its tier, and `evict()` runs; the call always returns true. -/
def Cs.insert (s : CsState) (d : Data) (isUnsolicited : Bool) (now : Nat) : Bool × CsState :=
  let s1 :=
    if (tableFind s.table d.name).isSome then
      let sd := detachQueue s d.name
      { sd with table := tableErase sd.table d.name }
    else s
  let e : Entry := { data := d, isUnsolicited := isUnsolicited, staleAt := now + d.freshnessPeriod }
  let s2 := { s1 with table := tableInsert s1.table e }
  let s3 := attachQueue s2 e now
  (true, Cs.evict s3)

/-- The state `Cs::insert` has built just before its final `evict()`
call: Table updated and the new Entry attached (helper for lemmas). -/
def insertPre (s : CsState) (d : Data) (isUnsolicited : Bool) (now : Nat) : CsState :=
  let s1 :=
    if (tableFind s.table d.name).isSome then
      eraseEntry (detachQueue s d.name) d.name
    else s
  let e : Entry := { data := d, isUnsolicited := isUnsolicited, staleAt := now + d.freshnessPeriod }
  attachQueue { s1 with table := tableInsert s1.table e } e now

/-- Modelled from the spec: the body of `Cs::setLimit` (declared at hpp
lines 85-88, defined in the missing `cs.cpp`).  Spec sect 4.5: updates
the capacity and triggers `evict()` (a no-op when the size is already
within the new limit). -/
def Cs.setLimit (s : CsState) (nMaxPackets : Nat) : CsState :=
  Cs.evict { s with limit := nMaxPackets }

/-- Outcome of an operation that may trip an assertion. -/
inductive AssertOutcome where
  | ok (s : CsState)
  | assertionFailed (msg : String)
deriving DecidableEq, Repr

/-- The body of `Cs::erase` as written in the header (hpp lines 79-83):
`BOOST_ASSERT_MSG(false, "not implemented")` — the call asserts
unconditionally and performs no removal. -/
def Cs.erase (_s : CsState) (_exactName : Name) : AssertOutcome :=
  AssertOutcome.assertionFailed "not implemented"

/-- Modelled from the spec: step 2 of the matching algorithm (spec sect
4.4) — the number of components by which the candidate's Name extends
the request's prefix must lie within the suffix bounds. -/
def suffixOk (i : Interest) (nm : Name) : Bool :=
  let k := nm.length - i.name.length
  decide (i.minSuffixComponents ≤ k) &&
    (match i.maxSuffixComponents with
     | none => true
     | some mx => decide (k ≤ mx))

/-- Modelled from the spec: step 4 of the matching algorithm (spec sect
4.4) — the component at the position right after the request's prefix,
when one exists, must not be an excluded value. -/
def excludeOk (i : Interest) (nm : Name) : Bool :=
  match nm[i.name.length]? with
  | none => true
  | some c => decide (c ∉ i.exclude)

/-- Modelled from the spec: steps 1, 2 and 4 of the matching algorithm
(spec sect 4.4) — the candidate range of entries whose Name extends the
request's prefix, narrowed by suffix bounds and the exclusion filter.
The Table is sorted, so filtering it preserves Name order. -/
def candidates (s : CsState) (i : Interest) : List Entry :=
  s.table.filter fun e =>
    nameHasPrefix e.data.name i.name && suffixOk i e.data.name && excludeOk i e.data.name

/-- Modelled from the spec: step 3 of the matching algorithm (spec sect
4.4) — with `mustBeFresh` only Fresh-tier entries survive; otherwise
Unsolicited entries are eligible only as a fallback when no solicited
candidate exists. -/
def narrow (s : CsState) (i : Interest) : List Entry :=
  let cands := candidates s i
  if i.mustBeFresh then
    cands.filter fun e => decide (s.tierOf e.data.name = some Tier.fresh)
  else
    let solicited := cands.filter fun e => decide (s.tierOf e.data.name ≠ some Tier.unsolicited)
    if solicited.isEmpty then cands else solicited

/-- Modelled from the spec: step 5 of the matching algorithm (spec sect
4.4) — Leftmost picks the smallest surviving candidate (the head, since
candidates are in Table order); Rightmost first looks for a candidate
whose Name exactly equals the request's name with zero extra suffix
(`findRightmostAmongExact`, hpp lines 151-155) and otherwise picks the
largest surviving candidate (`findRightmost`, hpp lines 145-149). -/
def pickBySelector (i : Interest) (cands : List Entry) : Option Entry :=
  match i.childSelector with
  | .leftmost => cands.head?
  | .rightmost =>
    match cands.find? (fun e => decide (e.data.name = i.name)) with
    | some e => some e
    | none => cands.getLast?

/-- Modelled from the spec: the body of `Cs::find` (declared at hpp
lines 74-77, defined in the missing `cs.cpp`).  The matching algorithm
follows spec sect 4.4; the header declares `find` as a `const` member of
a class with no `mutable` fields (hpp lines 76-77, 186-189), so the call
cannot modify the store and is a pure function of the state. -/
def Cs.find (s : CsState) (i : Interest) : Option Data :=
  (pickBySelector i (narrow s i)).map Entry.data

/-- A public operation on the ContentStore. -/
inductive Op where
  | insert (d : Data) (isUnsolicited : Bool) (now : Nat)
  | setLimit (nMaxPackets : Nat)
  | evict
  | goStale (nm : Name)
  | find (i : Interest)

/-- State transition of one operation.  `goStale` is the deferred
staleness transition of spec sect 4.3: it fires only for an entry still
in the Fresh queue (erasure or replacement cancels the scheduled task).
`find` is `const` in the header and therefore leaves the state
unchanged. -/
def stepOp (s : CsState) : Op → CsState
  | .insert d u now => (Cs.insert s d u now).2
  | .setLimit n => Cs.setLimit s n
  | .evict => Cs.evict s
  | .goStale nm => if nm ∈ s.qFresh then moveToStaleQueue s nm else s
  | .find _ => s

/-- Runs a sequence of public operations from a starting state. -/
def run (s : CsState) : List Op → CsState
  | [] => s
  | op :: ops => run (stepOp s op) ops

/-- The structural invariant of the store: the Table is strictly sorted
by Name (hpp line 33), and the queue references, taken together, are a
permutation of the Table's Names (hpp line 42: the Table iterator of an
Entry is in exactly one queue at any moment). -/
def Inv (s : CsState) : Prop :=
  List.Pairwise (fun a b => nameLt a.data.name b.data.name) s.table ∧ s.qAll.Perm s.names

instance (s : CsState) : Decidable (Inv s) := by
  unfold Inv; infer_instance

theorem queueErase_append_left {n : Name} {l1 : List Name} (l2 : List Name)
    (h : n ∈ l1) : queueErase (l1 ++ l2) n = queueErase l1 n ++ l2 := by
  induction l1 with
  | nil => cases h
  | cons m q ih =>
    by_cases hm : m = n
    · simp [queueErase, hm]
    · rcases List.mem_cons.1 h with rfl | hq
      · exact absurd rfl hm
      · simp [queueErase, hm, ih hq]

theorem queueErase_append_right {n : Name} {l1 : List Name} (l2 : List Name)
    (h : n ∉ l1) : queueErase (l1 ++ l2) n = l1 ++ queueErase l2 n := by
  induction l1 with
  | nil => rfl
  | cons m q ih =>
    have hm : m ≠ n := fun hc => h (hc ▸ List.mem_cons_self m q)
    have hq : n ∉ q := fun hc => h (List.mem_cons_of_mem m hc)
    simp [queueErase, hm, ih hq]

theorem queueErase_of_not_mem {n : Name} {l : List Name} (h : n ∉ l) :
    queueErase l n = l := by
  induction l with
  | nil => rfl
  | cons m q ih =>
    have hm : m ≠ n := fun hc => h (hc ▸ List.mem_cons_self m q)
    have hq : n ∉ q := fun hc => h (List.mem_cons_of_mem m hc)
    simp [queueErase, hm, ih hq]

theorem length_queueErase_of_mem {n : Name} {l : List Name} (h : n ∈ l) :
    (queueErase l n).length + 1 = l.length := by
  induction l with
  | nil => cases h
  | cons m q ih =>
    by_cases hm : m = n
    · simp [queueErase, hm]
    · rcases List.mem_cons.1 h with rfl | hq
      · exact absurd rfl hm
      · simp [queueErase, hm, ← ih hq]

theorem perm_cons_queueErase {n : Name} {l : List Name} (h : n ∈ l) :
    l.Perm (n :: queueErase l n) := by
  induction l with
  | nil => cases h
  | cons m q ih =>
    by_cases hm : m = n
    · subst hm
      simp [queueErase]
    · rcases List.mem_cons.1 h with rfl | hq
      · exact absurd rfl hm
      · simp only [queueErase, hm, if_neg, not_false_iff]
        exact (List.Perm.cons m (ih hq)).trans (List.Perm.swap n m _)

theorem perm_queueErase {l1 l2 : List Name} (n : Name) (h : l1.Perm l2) :
    (queueErase l1 n).Perm (queueErase l2 n) := by
  induction h with
  | nil => exact List.Perm.refl _
  | cons x h ih =>
    by_cases hx : x = n
    · simpa [queueErase, hx] using h
    · simpa [queueErase, hx] using List.Perm.cons x ih
  | swap x y l =>
    by_cases hy : y = n
    · by_cases hx : x = n
      · simp [queueErase, hx, hy]
      · simp [queueErase, hx, hy]
    · by_cases hx : x = n
      · simp [queueErase, hx, hy]
      · simp only [queueErase, hx, hy, if_neg, not_false_iff]
        exact List.Perm.swap x y _
  | trans h1 h2 ih1 ih2 => exact ih1.trans ih2

theorem not_mem_queueErase_of_nodup {n : Name} {l : List Name} (h : l.Nodup) :
    n ∉ queueErase l n := by
  induction l with
  | nil => simp [queueErase]
  | cons m q ih =>
    rcases List.nodup_cons.1 h with ⟨hm, hq⟩
    by_cases hmn : m = n
    · subst hmn
      simpa [queueErase] using hm
    · simp only [queueErase, hmn, if_neg, not_false_iff, List.mem_cons]
      rintro (rfl | hc)
      · exact hmn rfl
      · exact ih hq hc

theorem countQ_perm {l1 l2 : List Name} (n : Name) (h : l1.Perm l2) :
    countQ l1 n = countQ l2 n :=
  (h.filter _).length_eq

theorem countQ_eq_one_of_nodup {n : Name} {l : List Name} (hd : l.Nodup) (h : n ∈ l) :
    countQ l n = 1 := by
  induction l with
  | nil => cases h
  | cons m q ih =>
    rcases List.nodup_cons.1 hd with ⟨hm, hq⟩
    by_cases hmn : m = n
    · subst hmn
      have : m ∉ q := hm
      have hfq : q.filter (fun x => decide (x = m)) = [] := by
        rw [List.filter_eq_nil_iff]
        intro a ha
        simp only [decide_eq_true_eq]
        rintro rfl
        exact this ha
      simp [countQ, List.filter_cons, hfq]
    · rcases List.mem_cons.1 h with rfl | hmem
      · exact absurd rfl hmn
      · simpa [countQ, List.filter_cons, hmn] using ih hq hmem

theorem countQ_pos_of_mem {n : Name} {l : List Name} (h : n ∈ l) : 0 < countQ l n := by
  induction l with
  | nil => cases h
  | cons m q ih =>
    by_cases hmn : m = n
    · simp [countQ, List.filter_cons, hmn]
    · rcases List.mem_cons.1 h with rfl | hmem
      · exact absurd rfl hmn
      · simpa [countQ, List.filter_cons, hmn] using ih hmem

theorem qAll_detach (s : CsState) (n : Name) :
    (detachQueue s n).qAll = queueErase s.qAll n := by
  unfold detachQueue CsState.qAll
  by_cases hU : n ∈ s.qUnsolicited
  · simp only [hU, if_pos]
    rw [queueErase_append_left _ hU]
  · by_cases hS : n ∈ s.qStale
    · simp only [hU, hS, if_neg, if_pos, not_false_iff]
      rw [queueErase_append_right _ hU, queueErase_append_left _ hS]
    · simp only [hU, hS, if_neg, not_false_iff]
      rw [queueErase_append_right _ hU, queueErase_append_right _ hS]

theorem detach_table (s : CsState) (n : Name) : (detachQueue s n).table = s.table := by
  unfold detachQueue
  by_cases hU : n ∈ s.qUnsolicited
  · simp [hU]
  · by_cases hS : n ∈ s.qStale <;> simp [hU, hS]

theorem detach_limit (s : CsState) (n : Name) : (detachQueue s n).limit = s.limit := by
  unfold detachQueue
  by_cases hU : n ∈ s.qUnsolicited
  · simp [hU]
  · by_cases hS : n ∈ s.qStale <;> simp [hU, hS]

theorem qAll_append_perm (s : CsState) (tier : Tier) (n : Name) :
    (appendQueue s tier n).qAll.Perm (n :: s.qAll) := by
  cases tier with
  | unsolicited =>
    show ((s.qUnsolicited ++ [n]) ++ (s.qStale ++ s.qFresh)).Perm
      (n :: (s.qUnsolicited ++ (s.qStale ++ s.qFresh)))
    rw [List.append_assoc, List.singleton_append]
    exact List.perm_middle
  | stale =>
    show (s.qUnsolicited ++ ((s.qStale ++ [n]) ++ s.qFresh)).Perm
      (n :: (s.qUnsolicited ++ (s.qStale ++ s.qFresh)))
    rw [List.append_assoc, List.singleton_append, ← List.append_assoc]
    refine List.perm_middle.trans ?_
    rw [List.append_assoc]
  | fresh =>
    show (s.qUnsolicited ++ (s.qStale ++ (s.qFresh ++ [n]))).Perm
      (n :: (s.qUnsolicited ++ (s.qStale ++ s.qFresh)))
    have h1 : s.qUnsolicited ++ (s.qStale ++ (s.qFresh ++ [n]))
        = (s.qUnsolicited ++ (s.qStale ++ s.qFresh)) ++ [n] := by
      simp [List.append_assoc]
    rw [h1]
    exact List.perm_append_singleton n _

theorem append_table (s : CsState) (tier : Tier) (n : Name) :
    (appendQueue s tier n).table = s.table := by
  cases tier <;> rfl

theorem append_limit (s : CsState) (tier : Tier) (n : Name) :
    (appendQueue s tier n).limit = s.limit := by
  cases tier <;> rfl

theorem isAttached_iff (s : CsState) (n : Name) :
    s.isAttached n = true ↔ n ∈ s.qAll := by
  unfold CsState.isAttached CsState.qAll
  simp [List.mem_append, or_assoc]

theorem qAll_attach_perm (s : CsState) (e : Entry) (now : Nat)
    (h : e.data.name ∉ s.qAll) :
    (attachQueue s e now).qAll.Perm (e.data.name :: s.qAll) := by
  unfold attachQueue
  have hatt : ¬ (s.isAttached e.data.name = true) := fun hb =>
    h ((isAttached_iff s e.data.name).1 hb)
  rw [if_neg hatt]
  exact qAll_append_perm s (tierFor e now) e.data.name

theorem attach_table (s : CsState) (e : Entry) (now : Nat) :
    (attachQueue s e now).table = s.table := by
  unfold attachQueue
  rw [append_table]
  by_cases hatt : s.isAttached e.data.name = true
  · rw [if_pos hatt, detach_table]
  · rw [if_neg hatt]

theorem attach_limit (s : CsState) (e : Entry) (now : Nat) :
    (attachQueue s e now).limit = s.limit := by
  unfold attachQueue
  rw [append_limit]
  by_cases hatt : s.isAttached e.data.name = true
  · rw [if_pos hatt, detach_limit]
  · rw [if_neg hatt]

theorem names_tableErase (t : List Entry) (n : Name) :
    (tableErase t n).map Entry.name = queueErase (t.map Entry.name) n := by
  induction t with
  | nil => rfl
  | cons e t ih =>
    by_cases h : e.data.name = n
    · simp [tableErase, queueErase, h, Entry.name]
    · simp [tableErase, queueErase, h, Entry.name, ih]

theorem tableErase_sublist (t : List Entry) (n : Name) : (tableErase t n).Sublist t := by
  induction t with
  | nil => exact List.Sublist.refl _
  | cons e t ih =>
    by_cases h : e.data.name = n
    · simp only [tableErase, h, if_pos]
      exact List.sublist_cons_self e t
    · simp only [tableErase, h, if_neg, not_false_iff]
      exact List.Sublist.cons₂ e ih

theorem tableFind_some {t : List Entry} {n : Name} {e : Entry}
    (h : tableFind t n = some e) : e ∈ t ∧ e.data.name = n := by
  refine ⟨List.mem_of_find?_eq_some h, ?_⟩
  have := List.find?_some h
  simpa using this

theorem tableFind_none {t : List Entry} {n : Name}
    (h : tableFind t n = none) : n ∉ t.map Entry.name := by
  intro hmem
  rcases List.mem_map.1 hmem with ⟨e, he, hname⟩
  have := List.find?_eq_none.1 h e he
  simp [Entry.name] at this hname
  exact this hname

theorem tableInsert_mem {t : List Entry} {e x : Entry}
    (h : x ∈ tableInsert t e) : x = e ∨ x ∈ t := by
  induction t with
  | nil => simpa [tableInsert] using h
  | cons y t ih =>
    simp only [tableInsert] at h
    cases hc : cmpName e.data.name y.data.name <;> rw [hc] at h
    · rcases List.mem_cons.1 h with h1 | h1
      · exact Or.inl h1
      · exact Or.inr h1
    · rcases List.mem_cons.1 h with h1 | h1
      · exact Or.inl h1
      · exact Or.inr (List.mem_cons_of_mem y h1)
    · rcases List.mem_cons.1 h with h1 | h1
      · exact Or.inr (h1 ▸ List.mem_cons_self y t)
      · rcases ih h1 with h2 | h2
        · exact Or.inl h2
        · exact Or.inr (List.mem_cons_of_mem y h2)

theorem names_tableInsert_perm {t : List Entry} {e : Entry}
    (h : e.data.name ∉ t.map Entry.name) :
    ((tableInsert t e).map Entry.name).Perm (e.data.name :: t.map Entry.name) := by
  induction t with
  | nil => exact List.Perm.refl _
  | cons x t ih =>
    simp only [tableInsert]
    cases hc : cmpName e.data.name x.data.name
    · exact List.Perm.refl _
    · exfalso
      apply h
      simp only [List.map_cons, List.mem_cons]
      exact Or.inl ((cmpName_eq_iff _ _).1 hc)
    · have hnm : e.data.name ∉ t.map Entry.name := by
        simp only [List.map_cons, List.mem_cons] at h
        exact fun hx => h (Or.inr hx)
      simp only [List.map_cons]
      exact (List.Perm.cons _ (ih hnm)).trans (List.Perm.swap _ _ _)

theorem tableInsert_pairwise {t : List Entry} {e : Entry}
    (h : List.Pairwise (fun a b => nameLt a.data.name b.data.name) t) :
    List.Pairwise (fun a b => nameLt a.data.name b.data.name) (tableInsert t e) := by
  induction t with
  | nil => simp [tableInsert]
  | cons x t ih =>
    rcases List.pairwise_cons.1 h with ⟨hx, ht⟩
    simp only [tableInsert]
    cases hc : cmpName e.data.name x.data.name
    · refine List.pairwise_cons.2 ⟨?_, h⟩
      intro a ha
      rcases List.mem_cons.1 ha with rfl | ha
      · exact hc
      · exact nameLt_trans hc (hx a ha)
    · refine List.pairwise_cons.2 ⟨?_, ht⟩
      intro a ha
      rw [show e.data.name = x.data.name from (cmpName_eq_iff _ _).1 hc]
      exact hx a ha
    · refine List.pairwise_cons.2 ⟨?_, ih ht⟩
      intro a ha
      rcases tableInsert_mem ha with rfl | ha
      · show nameLt x.data.name a.data.name
        unfold nameLt
        rw [cmpName_swap, hc]
        rfl
      · exact hx a ha

theorem inv_nodup_names {s : CsState} (h : Inv s) : s.names.Nodup := by
  have hp : List.Pairwise nameLt s.names :=
    List.pairwise_map.2 (by simpa [Entry.name] using h.1)
  exact hp.imp (fun hab => nameLt_ne hab)

theorem evictPick_mem_qAll {s : CsState} {n : Name} {r : String}
    (h : evictPick s = some (n, r)) : n ∈ s.qAll := by
  unfold evictPick at h
  unfold CsState.qAll
  cases hU : s.qUnsolicited with
  | cons a l => rw [hU] at h; cases h; simp
  | nil =>
    rw [hU] at h
    cases hS : s.qStale with
    | cons a l => rw [hS] at h; cases h; simp
    | nil =>
      rw [hS] at h
      cases hF : s.qFresh with
      | cons a l => rw [hF] at h; cases h; simp
      | nil => rw [hF] at h; cases h

theorem evictPick_none_qAll {s : CsState} (h : evictPick s = none) : s.qAll = [] := by
  unfold evictPick at h
  unfold CsState.qAll
  cases hU : s.qUnsolicited with
  | cons a l => rw [hU] at h; cases h
  | nil =>
    rw [hU] at h
    cases hS : s.qStale with
    | cons a l => rw [hS] at h; cases h
    | nil =>
      rw [hS] at h
      cases hF : s.qFresh with
      | cons a l => rw [hF] at h; cases h
      | nil => simp [hF]

theorem remove_step {s : CsState} {n : Name} (hInv : Inv s) (hn : n ∈ s.qAll) :
    Inv (eraseEntry (detachQueue s n) n) ∧
    (eraseEntry (detachQueue s n) n).size + 1 = s.size ∧
    (eraseEntry (detachQueue s n) n).limit = s.limit := by
  rcases hInv with ⟨hsort, hperm⟩
  have hmem : n ∈ s.names := (hperm.mem_iff).1 hn
  have hq : (eraseEntry (detachQueue s n) n).qAll = queueErase s.qAll n := qAll_detach s n
  have htb : (eraseEntry (detachQueue s n) n).table = tableErase s.table n := by
    show tableErase (detachQueue s n).table n = tableErase s.table n
    rw [detach_table]
  have hnames : (eraseEntry (detachQueue s n) n).names = queueErase s.names n := by
    show (eraseEntry (detachQueue s n) n).table.map Entry.name = _
    rw [htb]
    exact names_tableErase s.table n
  refine ⟨⟨?_, ?_⟩, ?_, ?_⟩
  · rw [htb]
    exact List.Pairwise.sublist (tableErase_sublist s.table n) hsort
  · rw [hq, hnames]
    exact perm_queueErase n hperm
  · have h1 : (eraseEntry (detachQueue s n) n).names.length + 1 = s.names.length := by
      rw [hnames]
      exact length_queueErase_of_mem hmem
    have h3 : (eraseEntry (detachQueue s n) n).names.length
        = (eraseEntry (detachQueue s n) n).size := List.length_map _ _
    have h4 : s.names.length = s.size := List.length_map _ _
    omega
  · show (detachQueue s n).limit = s.limit
    exact detach_limit s n

theorem remove_not_mem {s : CsState} (n : Name) (hInv : Inv s) :
    n ∉ (eraseEntry (detachQueue s n) n).names ∧
    n ∉ (eraseEntry (detachQueue s n) n).qAll := by
  have hq : (eraseEntry (detachQueue s n) n).qAll = queueErase s.qAll n := qAll_detach s n
  have ht : (eraseEntry (detachQueue s n) n).table = tableErase s.table n := by
    show tableErase (detachQueue s n).table n = tableErase s.table n
    rw [detach_table]
  have hnames : (eraseEntry (detachQueue s n) n).names = queueErase s.names n := by
    unfold CsState.names
    rw [ht]
    exact names_tableErase s.table n
  have hnd : s.names.Nodup := inv_nodup_names hInv
  have hndq : s.qAll.Nodup := (hInv.2.nodup_iff).2 hnd
  constructor
  · rw [hnames]
    exact not_mem_queueErase_of_nodup hnd
  · rw [hq]
    exact not_mem_queueErase_of_nodup hndq

theorem insert_attach_inv {s1 : CsState} (e : Entry) (now : Nat) (hInv : Inv s1)
    (hn1 : e.data.name ∉ s1.names) (hn2 : e.data.name ∉ s1.qAll) :
    Inv (attachQueue { s1 with table := tableInsert s1.table e } e now) ∧
    (attachQueue { s1 with table := tableInsert s1.table e } e now).limit = s1.limit := by
  have htb : (attachQueue { s1 with table := tableInsert s1.table e } e now).table
      = tableInsert s1.table e := attach_table _ e now
  have hq2 : ({ s1 with table := tableInsert s1.table e } : CsState).qAll = s1.qAll := rfl
  have hqp : (attachQueue { s1 with table := tableInsert s1.table e } e now).qAll.Perm
      (e.data.name :: s1.qAll) := qAll_attach_perm _ e now (by rw [hq2]; exact hn2)
  have hnp : ((tableInsert s1.table e).map Entry.name).Perm (e.data.name :: s1.names) :=
    names_tableInsert_perm (by simpa [CsState.names] using hn1)
  refine ⟨⟨?_, ?_⟩, ?_⟩
  · rw [htb]
    exact tableInsert_pairwise hInv.1
  · have hnames : (attachQueue { s1 with table := tableInsert s1.table e } e now).names
        = (tableInsert s1.table e).map Entry.name := by
      show (attachQueue { s1 with table := tableInsert s1.table e } e now).table.map _ = _
      rw [htb]
    rw [hnames]
    exact (hqp.trans (List.Perm.cons _ hInv.2)).trans hnp.symm
  · rw [attach_limit]

theorem insertPre_spec {s : CsState} (d : Data) (u : Bool) (now : Nat) (hInv : Inv s) :
    Inv (insertPre s d u now) ∧ (insertPre s d u now).limit = s.limit := by
  by_cases hc : (tableFind s.table d.name).isSome = true
  · rcases Option.isSome_iff_exists.1 hc with ⟨e0, he0⟩
    rcases tableFind_some he0 with ⟨hmem, hname⟩
    have hn : d.name ∈ s.names :=
      List.mem_map.2 ⟨e0, hmem, hname⟩
    have hq : d.name ∈ s.qAll := (hInv.2.mem_iff).2 hn
    rcases remove_step hInv hq with ⟨hI1, _, hL1⟩
    rcases remove_not_mem d.name hInv with ⟨hm1, hm2⟩
    have h2 := insert_attach_inv ⟨d, u, now + d.freshnessPeriod⟩ now hI1 hm1 hm2
    unfold insertPre
    rw [if_pos hc]
    exact ⟨h2.1, h2.2.trans hL1⟩
  · have hnone : tableFind s.table d.name = none := by
      rcases h : tableFind s.table d.name with _ | e0
      · rfl
      · rw [h] at hc; simp at hc
    have hn : d.name ∉ s.names := tableFind_none hnone
    have hq : d.name ∉ s.qAll := fun hmem => hn ((hInv.2.mem_iff).1 hmem)
    have h2 := insert_attach_inv ⟨d, u, now + d.freshnessPeriod⟩ now hInv hn hq
    unfold insertPre
    rw [if_neg hc]
    exact h2

theorem evictLoop_inv : ∀ (fuel : Nat) {s : CsState}, Inv s →
    Inv (evictLoop s fuel) ∧ (evictLoop s fuel).limit = s.limit ∧
    (s.size ≤ s.limit + fuel → (evictLoop s fuel).size ≤ s.limit) := by
  intro fuel
  induction fuel with
  | zero =>
    intro s hInv
    refine ⟨hInv, rfl, ?_⟩
    intro h
    simpa using h
  | succ fuel ih =>
    intro s hInv
    simp only [evictLoop]
    by_cases hle : s.size ≤ s.limit
    · rw [if_pos hle]
      exact ⟨hInv, rfl, fun _ => hle⟩
    · rw [if_neg hle]
      cases hp : evictPick s with
      | none =>
        exfalso
        have hq := evictPick_none_qAll hp
        have hpn : s.names.Perm [] := by
          rw [← hq]
          exact hInv.2.symm
        have hnil : s.names = [] := List.perm_nil.1 hpn
        have htnil : s.table = [] := by
          have := congrArg List.length hnil
          simpa [CsState.names] using List.map_eq_nil_iff.1 hnil
        exact hle (by simp [CsState.size, htnil])
      | some pr =>
        obtain ⟨n, r⟩ := pr
        have hn : n ∈ s.qAll := evictPick_mem_qAll hp
        rcases remove_step hInv hn with ⟨hI1, hsz, hL1⟩
        rcases ih hI1 with ⟨hI2, hL2, hB2⟩
        refine ⟨hI2, by rw [hL2, hL1], ?_⟩
        intro hbound
        have hb1 : (eraseEntry (detachQueue s n) n).size
            ≤ (eraseEntry (detachQueue s n) n).limit + fuel := by
          rw [hL1]
          omega
        have hb2 := hB2 hb1
        rw [hL1] at hb2
        exact hb2

theorem evict_inv {s : CsState} (hInv : Inv s) :
    Inv (Cs.evict s) ∧ (Cs.evict s).limit = s.limit ∧ (Cs.evict s).size ≤ s.limit := by
  rcases evictLoop_inv s.size hInv with ⟨h1, h2, h3⟩
  exact ⟨h1, h2, h3 (by omega)⟩

theorem evict_of_size_le {s : CsState} (h : s.size ≤ s.limit) : Cs.evict s = s := by
  unfold Cs.evict
  cases hs : s.size with
  | zero => rfl
  | succ k =>
    simp only [evictLoop]
    rw [if_pos h]

theorem insert_eq (s : CsState) (d : Data) (u : Bool) (now : Nat) :
    Cs.insert s d u now = (true, Cs.evict (insertPre s d u now)) := rfl

theorem insert_inv {s : CsState} {d : Data} {u : Bool} {now : Nat} (hInv : Inv s) :
    Inv (Cs.insert s d u now).2 ∧ (Cs.insert s d u now).2.limit = s.limit ∧
    (Cs.insert s d u now).2.size ≤ s.limit := by
  rcases insertPre_spec d u now hInv with ⟨hI, hL⟩
  rcases evict_inv hI with ⟨h1, h2, h3⟩
  rw [insert_eq]
  exact ⟨h1, by rw [h2, hL], by rw [← hL]; exact h3⟩

theorem setLimit_inv {s : CsState} {m : Nat} (hInv : Inv s) : Inv (Cs.setLimit s m) := by
  have h0 : Inv { s with limit := m } := ⟨hInv.1, hInv.2⟩
  exact (evict_inv h0).1

theorem moveToStale_table (s : CsState) (n : Name) :
    (moveToStaleQueue s n).table = s.table := by
  unfold moveToStaleQueue
  rw [append_table, detach_table]

theorem goStale_inv {s : CsState} {n : Name} (hInv : Inv s) (hmem : n ∈ s.qFresh) :
    Inv (moveToStaleQueue s n) := by
  have hq : n ∈ s.qAll := by
    unfold CsState.qAll
    simp [hmem]
  constructor
  · rw [moveToStale_table]
    exact hInv.1
  · have h1 : (moveToStaleQueue s n).qAll.Perm (n :: (detachQueue s n).qAll) :=
      qAll_append_perm (detachQueue s n) Tier.stale n
    have h2 : (detachQueue s n).qAll = queueErase s.qAll n := qAll_detach s n
    have h3 : s.qAll.Perm (n :: queueErase s.qAll n) := perm_cons_queueErase hq
    have hnames : (moveToStaleQueue s n).names = s.names := by
      unfold CsState.names
      rw [moveToStale_table]
    rw [hnames]
    rw [h2] at h1
    exact (h1.trans h3.symm).trans hInv.2

theorem stepOp_inv {s : CsState} (op : Op) (hInv : Inv s) : Inv (stepOp s op) := by
  cases op with
  | insert d u now => exact (insert_inv hInv).1
  | setLimit m => exact setLimit_inv hInv
  | evict => exact (evict_inv hInv).1
  | goStale nm =>
    by_cases h : nm ∈ s.qFresh
    · simpa [stepOp, h] using goStale_inv hInv h
    · simpa [stepOp, h] using hInv
  | find i => exact hInv

theorem init_inv (n : Nat) : Inv (Cs.init n) := by
  constructor <;> simp [Cs.init, CsState.qAll, CsState.names]

theorem run_inv : ∀ (ops : List Op) {s : CsState}, Inv s → Inv (run s ops) := by
  intro ops
  induction ops with
  | nil => intro s h; exact h
  | cons op ops ih => intro s h; exact ih (stepOp_inv op h)

theorem not_mem_queues {s : CsState} {n : Name} (h : n ∉ s.qAll) :
    n ∉ s.qUnsolicited ∧ n ∉ s.qStale ∧ n ∉ s.qFresh := by
  unfold CsState.qAll at h
  simp only [List.mem_append] at h
  push_neg at h
  exact ⟨h.1, h.2.1, h.2.2⟩

theorem tierOf_append {s : CsState} {n : Name} (t : Tier) (h : n ∉ s.qAll) :
    (appendQueue s t n).tierOf n = some t := by
  rcases not_mem_queues h with ⟨hU, hS, hF⟩
  cases t with
  | unsolicited =>
    show CsState.tierOf _ n = _
    unfold CsState.tierOf appendQueue
    simp
  | stale =>
    show CsState.tierOf _ n = _
    unfold CsState.tierOf appendQueue
    simp [hU]
  | fresh =>
    show CsState.tierOf _ n = _
    unfold CsState.tierOf appendQueue
    simp [hU, hS]

theorem attach_tierOf {s : CsState} {e : Entry} {now : Nat} (h : e.data.name ∉ s.qAll) :
    (attachQueue s e now).tierOf e.data.name = some (tierFor e now) := by
  unfold attachQueue
  have hatt : ¬ (s.isAttached e.data.name = true) := fun hb =>
    h ((isAttached_iff s e.data.name).1 hb)
  rw [if_neg hatt]
  exact tierOf_append (tierFor e now) h

theorem insertPre_tierOf {s : CsState} {d : Data} {u : Bool} {now : Nat} (hInv : Inv s) :
    (insertPre s d u now).tierOf d.name
      = some (tierFor { data := d, isUnsolicited := u, staleAt := now + d.freshnessPeriod } now) := by
  by_cases hc : (tableFind s.table d.name).isSome = true
  · rcases remove_not_mem d.name hInv with ⟨_, hm2⟩
    unfold insertPre
    rw [if_pos hc]
    exact attach_tierOf hm2
  · have hnone : tableFind s.table d.name = none := by
      rcases h : tableFind s.table d.name with _ | e0
      · rfl
      · rw [h] at hc; simp at hc
    have hn : d.name ∉ s.names := tableFind_none hnone
    have hq : d.name ∉ s.qAll := fun hmem => hn ((hInv.2.mem_iff).1 hmem)
    unfold insertPre
    rw [if_neg hc]
    exact attach_tierOf hq

theorem tableInsert_length (t : List Entry) (e : Entry) :
    (tableInsert t e).length ≤ t.length + 1 := by
  induction t with
  | nil => simp [tableInsert]
  | cons x t ih =>
    simp only [tableInsert]
    cases cmpName e.data.name x.data.name
    · simp
    · simp
    · simpa using Nat.succ_le_succ ih

theorem eraseEntry_detach_table (s : CsState) (n : Name) :
    (eraseEntry (detachQueue s n) n).table = tableErase s.table n := by
  show tableErase (detachQueue s n).table n = tableErase s.table n
  rw [detach_table]

theorem insertPre_size_le (s : CsState) (d : Data) (u : Bool) (now : Nat) :
    (insertPre s d u now).size ≤ s.size + 1 := by
  unfold insertPre
  by_cases hc : (tableFind s.table d.name).isSome = true
  · rw [if_pos hc]
    show (attachQueue _ _ now).table.length ≤ s.table.length + 1
    rw [attach_table]
    show (tableInsert (eraseEntry (detachQueue s d.name) d.name).table _).length ≤ _
    rw [eraseEntry_detach_table]
    refine le_trans (tableInsert_length _ _) ?_
    have hlen := (tableErase_sublist s.table d.name).length_le
    omega
  · rw [if_neg hc]
    show (attachQueue _ _ now).table.length ≤ s.table.length + 1
    rw [attach_table]
    exact tableInsert_length _ _

theorem filter_eq_singleton_of_name {t : List Entry} {e : Entry} {p : Entry → Bool}
    (hnd : (t.map Entry.name).Nodup) (he : e ∈ t)
    (hp : ∀ x ∈ t, (p x = true ↔ x.data.name = e.data.name)) :
    t.filter p = [e] := by
  induction t with
  | nil => cases he
  | cons y t ih =>
    rw [List.map_cons] at hnd
    rcases List.nodup_cons.1 hnd with ⟨hy, ht⟩
    rcases List.mem_cons.1 he with rfl | he'
    · rw [List.filter_cons_of_pos ((hp e (List.mem_cons_self e t)).2 rfl)]
      have hrest : t.filter p = [] := by
        rw [List.filter_eq_nil_iff]
        intro x hx hpx
        have hname := (hp x (List.mem_cons_of_mem e hx)).1 hpx
        exact hy (List.mem_map.2 ⟨x, hx, hname⟩)
      rw [hrest]
    · have hyname : ¬ (p y = true) := by
        intro hpy
        have hname := (hp y (List.mem_cons_self y t)).1 hpy
        have : Entry.name y ∈ t.map Entry.name := List.mem_map.2 ⟨e, he', hname.symm⟩
        exact hy this
      rw [List.filter_cons_of_neg (by simpa using hyname)]
      exact ih ht he' (fun x hx => hp x (List.mem_cons_of_mem y hx))

theorem pick_nil (i : Interest) : pickBySelector i [] = none := by
  unfold pickBySelector
  cases i.childSelector <;> rfl

/-- A sample Data packet with a one-component Name. -/
def exData : Data := { name := [[5]], freshnessPeriod := 4, payload := 0 }

/-- A store holding `exData` as an unsolicited entry, reached from the
empty store by one insert. -/
def exUnsolState : CsState := run (Cs.init 10) [Op.insert exData true 0]

/-- A plain request for `exData`'s Name (no selectors restricting it). -/
def exInterest : Interest :=
  { name := [[5]], minSuffixComponents := 0, maxSuffixComponents := none,
    mustBeFresh := false, childSelector := ChildSel.leftmost, exclude := [] }

/-- A full store at capacity 0 holding one fresh entry. -/
def exFullState : CsState :=
  { limit := 0,
    table := [{ data := { name := [[7]], freshnessPeriod := 3, payload := 1 },
                isUnsolicited := false, staleAt := 3 }],
    qUnsolicited := [], qStale := [], qFresh := [[[7]]] }

/-- An entry named `/x`. -/
def exEntryX : Entry :=
  { data := { name := [[120]], freshnessPeriod := 1, payload := 0 },
    isUnsolicited := false, staleAt := 1 }

/-- An entry named `/x/y`. -/
def exEntryXY : Entry :=
  { data := { name := [[120], [121]], freshnessPeriod := 1, payload := 1 },
    isUnsolicited := false, staleAt := 1 }

/-- A store holding `/x` and `/x/y`, both in the fresh queue. -/
def exTwoState : CsState :=
  { limit := 10, table := [exEntryX, exEntryXY],
    qUnsolicited := [], qStale := [], qFresh := [[[120]], [[120], [121]]] }

/-- A request with `minSuffixComponents > maxSuffixComponents`. -/
def exBadInterest : Interest :=
  { name := [[5]], minSuffixComponents := 1, maxSuffixComponents := some 0,
    mustBeFresh := false, childSelector := ChildSel.rightmost, exclude := [] }

/-- C1: for every sequence of insert, setLimit and eviction operations
from a fresh store, immediately after `evict()` returns, the number of
stored packets satisfies `size() <= limit`. -/
theorem cs_capacity_bound (nMaxPackets : Nat) (ops : List Op) :
    (Cs.evict (run (Cs.init nMaxPackets) ops)).size
      ≤ (Cs.evict (run (Cs.init nMaxPackets) ops)).getLimit := by
  have hInv : Inv (run (Cs.init nMaxPackets) ops) := run_inv ops (init_inv nMaxPackets)
  rcases evict_inv hInv with ⟨_, hL, hB⟩
  show _ ≤ (Cs.evict (run (Cs.init nMaxPackets) ops)).limit
  rw [hL]
  exact hB

/-- C2: at every observation point between public operations, every entry
of the Table is referenced by exactly one slot of the three cleanup
queues taken together, and every queue reference points at an entry of
the Table. -/
theorem cs_entry_tier_invariant (nMaxPackets : Nat) (ops : List Op) :
    (∀ e ∈ (run (Cs.init nMaxPackets) ops).table,
        countQ (run (Cs.init nMaxPackets) ops).qAll e.data.name = 1) ∧
    (∀ n ∈ (run (Cs.init nMaxPackets) ops).qAll,
        ∃ e ∈ (run (Cs.init nMaxPackets) ops).table, e.data.name = n) := by
  have hInv : Inv (run (Cs.init nMaxPackets) ops) := run_inv ops (init_inv nMaxPackets)
  have hnd : (run (Cs.init nMaxPackets) ops).names.Nodup := inv_nodup_names hInv
  constructor
  · intro e he
    have hmem : e.data.name ∈ (run (Cs.init nMaxPackets) ops).names :=
      List.mem_map.2 ⟨e, he, rfl⟩
    rw [countQ_perm _ hInv.2]
    exact countQ_eq_one_of_nodup hnd hmem
  · intro n hn
    have hmem : n ∈ (run (Cs.init nMaxPackets) ops).names := (hInv.2.mem_iff).1 hn
    rcases List.mem_map.1 hmem with ⟨e, he, hname⟩
    exact ⟨e, he, hname⟩

/-- C3: when eviction must remove an entry, `evictPick()` returns the
head of the first non-empty queue in the fixed order unsolicited, stale,
fresh, with the matching reason string, and `evict()` detaches and
erases exactly that entry (a queue's head is the entry attached to that
tier earliest, since attachment appends at the tail). -/
theorem cs_eviction_priority (s : CsState) (hInv : Inv s) (hsz : s.size = s.limit + 1) :
    Cs.evict s = evictOnce s ∧
    (∀ u rest, s.qUnsolicited = u :: rest → evictPick s = some (u, "unsolicited")) ∧
    (∀ v rest, s.qUnsolicited = [] → s.qStale = v :: rest →
      evictPick s = some (v, "stale")) ∧
    (∀ w rest, s.qUnsolicited = [] → s.qStale = [] → s.qFresh = w :: rest →
      evictPick s = some (w, "fresh")) := by
  refine ⟨?_, ?_, ?_, ?_⟩
  · unfold Cs.evict
    rw [hsz]
    simp only [evictLoop]
    rw [if_neg (by omega)]
    cases hp : evictPick s with
    | none =>
      exfalso
      have hq := evictPick_none_qAll hp
      have hpn : s.names.Perm [] := by
        rw [← hq]
        exact hInv.2.symm
      have hnil : s.names = [] := List.perm_nil.1 hpn
      have hzero : s.size = 0 := by
        simpa [CsState.size, CsState.names] using congrArg List.length hnil
      omega
    | some pr =>
      obtain ⟨n, r⟩ := pr
      have hn := evictPick_mem_qAll hp
      rcases remove_step hInv hn with ⟨_, hs1, hL1⟩
      have hle : (eraseEntry (detachQueue s n) n).size
          ≤ (eraseEntry (detachQueue s n) n).limit := by
        rw [hL1]
        omega
      have hstop : evictLoop (eraseEntry (detachQueue s n) n) s.limit
          = eraseEntry (detachQueue s n) n := by
        cases s.limit with
        | zero => rfl
        | succ m =>
          simp only [evictLoop]
          rw [if_pos hle]
      show evictLoop (eraseEntry (detachQueue s n) n) s.limit = evictOnce s
      rw [hstop]
      unfold evictOnce
      rw [hp]
  · intro u rest hu
    unfold evictPick
    rw [hu]
  · intro v rest hu hv
    unfold evictPick
    rw [hu, hv]
  · intro w rest hu hv hw
    unfold evictPick
    rw [hu, hv, hw]

/-- C3 witness: a concrete full store with one fresh entry; eviction is
forced and picks the head of the fresh queue with reason "fresh". -/
theorem cs_eviction_priority_witness :
    Inv exFullState ∧ exFullState.size = exFullState.limit + 1 ∧
    evictPick exFullState = some ([[7]], "fresh") ∧
    Cs.evict exFullState = evictOnce exFullState := by
  have h := cs_eviction_priority exFullState (by decide) (by decide)
  exact ⟨by decide, by decide, h.2.2.2 [[7]] [] rfl rfl rfl, h.1⟩

/-- C4 counterexample: a store whose only entry is Unsolicited; `find`
successfully returns that entry's Data, yet after the call (the state is
unchanged — `find` is a `const` member, hpp lines 76-77) the entry is
still found in the Unsolicited tier, not in Stale or Fresh. -/
theorem cs_promotion_counterexample :
    Cs.find exUnsolState exInterest = some exData ∧
    run exUnsolState [Op.find exInterest] = exUnsolState ∧
    (run exUnsolState [Op.find exInterest]).tierOf [[5]] = some Tier.unsolicited := by
  refine ⟨by decide, rfl, by decide⟩

/-- C4 (amended): `find` performs no tier transition — an entry that is
in the Unsolicited tier before a `find` call is still in the Unsolicited
tier afterwards, whatever the request, because `find` is declared
`const` on a class with no mutable members and cannot modify the store. -/
theorem cs_find_preserves_tier (s : CsState) (i : Interest) (nm : Name)
    (h : s.tierOf nm = some Tier.unsolicited) :
    (run s [Op.find i]).tierOf nm = some Tier.unsolicited := h

/-- C4 witness: the amended theorem applied to the concrete unsolicited
store. -/
theorem cs_find_preserves_tier_witness :
    exUnsolState.tierOf [[5]] = some Tier.unsolicited ∧
    (run exUnsolState [Op.find exInterest]).tierOf [[5]] = some Tier.unsolicited :=
  ⟨by decide, cs_find_preserves_tier exUnsolState exInterest [[5]] (by decide)⟩

/-- C5: the tier assigned at insertion is Unsolicited when the packet is
unsolicited, else Stale when the freshness period is zero or already
expired at insertion time, else Fresh — checked on the store after
`insert` returns, with capacity to spare so that the new entry is not
immediately evicted. -/
theorem cs_tier_assignment (s : CsState) (d : Data) (u : Bool) (now : Nat)
    (hInv : Inv s) (hroom : s.size < s.limit) :
    (Cs.insert s d u now).2.tierOf d.name =
      some (if u then Tier.unsolicited
            else if d.freshnessPeriod = 0 ∨ now + d.freshnessPeriod ≤ now then Tier.stale
            else Tier.fresh) := by
  have hpre := insertPre_spec d u now hInv
  have hsz : (insertPre s d u now).size ≤ (insertPre s d u now).limit := by
    have h1 := insertPre_size_le s d u now
    rw [hpre.2]
    omega
  rw [insert_eq]
  show (Cs.evict (insertPre s d u now)).tierOf d.name = _
  rw [evict_of_size_le hsz]
  rw [insertPre_tierOf hInv]
  rfl

/-- C5 witness: inserting a freshness-zero packet into the empty store
of capacity 10 at time 0 lands it directly in the Stale tier. -/
theorem cs_tier_assignment_witness :
    Inv (Cs.init 10) ∧ (Cs.init 10).size < (Cs.init 10).limit ∧
    (Cs.insert (Cs.init 10) { name := [[9]], freshnessPeriod := 0, payload := 2 } false 0).2.tierOf
        [[9]]
      = some Tier.stale := by
  refine ⟨by decide, by decide, ?_⟩
  have h := cs_tier_assignment (Cs.init 10)
    { name := [[9]], freshnessPeriod := 0, payload := 2 } false 0 (by decide) (by decide)
  simpa using h

/-- C8: `insert` always succeeds and returns true, for every Data packet
and store state; capacity pressure never rejects an insert — it is
handled by the `evict()` call at the end of `insert`, which leaves the
store within its limit. -/
theorem cs_insert_returns_true (s : CsState) (d : Data) (u : Bool) (now : Nat)
    (hInv : Inv s) :
    (Cs.insert s d u now).1 = true ∧ (Cs.insert s d u now).2.size ≤ s.getLimit :=
  ⟨rfl, (insert_inv hInv).2.2⟩

/-- C8 witness: inserting into a full store of capacity 0 still returns
true and the store stays within its limit. -/
theorem cs_insert_returns_true_witness :
    Inv exFullState ∧
    (Cs.insert exFullState exData false 0).1 = true ∧
    (Cs.insert exFullState exData false 0).2.size ≤ exFullState.getLimit := by
  have h := cs_insert_returns_true exFullState exData false 0 (by decide)
  exact ⟨by decide, h.1, h.2⟩

/-- C9: `erase(exactName)` is the unconditional assertion
`BOOST_ASSERT_MSG(false, "not implemented")` (hpp lines 79-83): for
every Name it trips the fatal assertion and never produces an updated
store. -/
theorem cs_erase_asserts (s : CsState) (exactName : Name) :
    Cs.erase s exactName = AssertOutcome.assertionFailed "not implemented" := rfl

/-- C10: `find` is a `const` member of a class with no mutable fields
(hpp lines 76-77, 186-189): a `find` call leaves `size()`, `getLimit()`
and the Name-ordered enumeration of cached entries (the Table) exactly
as they were. -/
theorem cs_find_const_frame (s : CsState) (i : Interest) :
    (run s [Op.find i]).size = s.size ∧
    (run s [Op.find i]).getLimit = s.getLimit ∧
    (run s [Op.find i]).names = s.names ∧
    (run s [Op.find i]).table = s.table :=
  ⟨rfl, rfl, rfl, rfl⟩

theorem find_exact (s : CsState) (e : Entry) (i : Interest)
    (hInv : Inv s) (he : e ∈ s.table)
    (hname : i.name = e.data.name) (hmin : i.minSuffixComponents = 0)
    (hmax : i.maxSuffixComponents = some 0) (hfresh : i.mustBeFresh = false)
    (hsel : i.childSelector = ChildSel.rightmost) :
    Cs.find s i = some e.data := by
  have hcand : candidates s i = [e] := by
    unfold candidates
    apply filter_eq_singleton_of_name (inv_nodup_names hInv) he
    intro x hx
    constructor
    · intro hpx
      simp only [Bool.and_eq_true] at hpx
      obtain ⟨⟨hpre, hsuf⟩, _⟩ := hpx
      rw [hname] at hpre
      unfold suffixOk at hsuf
      simp only [hmin, hmax, hname, Bool.and_eq_true, decide_eq_true_eq] at hsuf
      exact nameHasPrefix_eq_of_length_le hpre (by omega)
    · intro hxe
      have h1 : nameHasPrefix x.data.name i.name = true := by
        rw [hname, ← hxe]
        exact nameHasPrefix_refl x.data.name
      have h2 : suffixOk i x.data.name = true := by
        unfold suffixOk
        simp [hmin, hmax, hname, hxe]
      have h3 : excludeOk i x.data.name = true := by
        unfold excludeOk
        rw [hname, hxe]
        rw [List.getElem?_eq_none (le_refl e.data.name.length)]
      simp [h1, h2, h3]
  have hnarrow : narrow s i = [e] := by
    unfold narrow
    rw [hcand, hfresh]
    by_cases hu : s.tierOf e.data.name = some Tier.unsolicited
    · simp [hu]
    · simp [hu]
  unfold Cs.find
  rw [hnarrow]
  unfold pickBySelector
  rw [hsel]
  simp [hname]

/-- C6: with the Table containing entries named both a Name and an
extension of it, a request for that Name with the Rightmost selector and
`maxSuffixComponents = 0` returns the exactly-named entry, never the
extension: an exact-name match is preferred over prefix ties. -/
theorem cs_exact_match_precedence (s : CsState) (e : Entry)
    (hInv : Inv s) (he : e ∈ s.table) :
    Cs.find s
      { name := e.data.name, minSuffixComponents := 0, maxSuffixComponents := some 0,
        mustBeFresh := false, childSelector := ChildSel.rightmost, exclude := [] }
      = some e.data :=
  find_exact s e _ hInv he rfl rfl rfl rfl rfl

/-- C6 witness: in the store holding `/x` and `/x/y`, the Rightmost
request for `/x` with zero suffix components returns `/x`, not `/x/y`. -/
theorem cs_exact_match_precedence_witness :
    Inv exTwoState ∧ exEntryX ∈ exTwoState.table ∧
    Cs.find exTwoState
      { name := [[120]], minSuffixComponents := 0, maxSuffixComponents := some 0,
        mustBeFresh := false, childSelector := ChildSel.rightmost, exclude := [] }
      = some exEntryX.data := by
  have h := cs_exact_match_precedence exTwoState exEntryX (by decide) (by decide)
  exact ⟨by decide, by decide, h⟩

/-- C7: the Matcher is total — a request with
`minSuffixComponents > maxSuffixComponents` yields the explicit absent
result, and so does any request whose narrowed candidate set is empty;
no request faults. -/
theorem cs_matcher_total (s : CsState) (i : Interest) :
    ((∃ mx, i.maxSuffixComponents = some mx ∧ mx < i.minSuffixComponents) →
      Cs.find s i = none) ∧
    (narrow s i = [] → Cs.find s i = none) := by
  constructor
  · rintro ⟨mx, hmx, hlt⟩
    have hcand : candidates s i = [] := by
      unfold candidates
      rw [List.filter_eq_nil_iff]
      intro x hx hcontr
      simp only [Bool.and_eq_true] at hcontr
      obtain ⟨⟨_, hsuf⟩, _⟩ := hcontr
      unfold suffixOk at hsuf
      simp only [hmx, Bool.and_eq_true, decide_eq_true_eq] at hsuf
      omega
    have hnarrow : narrow s i = [] := by
      unfold narrow
      rw [hcand]
      cases hmf : i.mustBeFresh <;> simp [hmf]
    unfold Cs.find
    rw [hnarrow, pick_nil]
    rfl
  · intro hnarrow
    unfold Cs.find
    rw [hnarrow, pick_nil]
    rfl

/-- C7 witness: a request with `minSuffixComponents = 1` and
`maxSuffixComponents = 0` yields the absent result on a non-empty
store. -/
theorem cs_matcher_total_witness :
    (∃ mx, exBadInterest.maxSuffixComponents = some mx ∧
      mx < exBadInterest.minSuffixComponents) ∧
    Cs.find exUnsolState exBadInterest = none :=
  ⟨⟨0, rfl, by decide⟩, (cs_matcher_total exUnsolState exBadInterest).1 ⟨0, rfl, by decide⟩⟩

end NfdCs

